import Mathlib

/-!
Verification of the Uneventful dashboard core (src/frontend/src/components/Dashboard.tsx)
against its natural-language specification.

The embedding is shallow: the relevant TypeScript values become Lean structures and the
handlers become pure functions on those structures.  JavaScript Set objects are modelled
as insertion-ordered duplicate-free lists of strings; `String.prototype.localeCompare`
is modelled as code-point lexicographic comparison (the keys compared in the code are
ISO date strings and display names, where any collation agrees with code-point order on
the properties proved here); `Array.prototype.sort`, which ECMAScript requires to be a
stable sort consistent with the comparator, is modelled by `List.insertionSort`, which
is stable and sorted for the total preorders used here, hence produces the same list.
-/

namespace Uneventful

/-- Start field of a Google Calendar event: either a timed `dateTime` or an
all-day `date`, both optional ISO strings. -/
structure EventStart where
  dateTime : Option String
  date : Option String
deriving DecidableEq

/-- CalendarEvent as consumed by Dashboard.tsx: id, title (`summary`), optional
description and location, start field, and the post-fetch tags `calendarId` and
`calendarColor`. -/
structure CalendarEvent where
  id : String
  summary : Option String
  description : Option String
  location : Option String
  start : EventStart
  calendarId : String
  calendarColor : Option String
deriving DecidableEq

/-- Calendar as consumed by Dashboard.tsx. -/
structure Calendar where
  id : String
  summary : Option String
  summaryOverride : Option String
  primary : Bool
  backgroundColor : Option String
deriving DecidableEq

/-- JavaScript `a || b` for an optional string `a`: the empty string is falsy,
so it falls through to `b`, as does an absent value. -/
def orElseStr (a : Option String) (b : String) : String :=
  match a with
  | some s => if s = "" then b else s
  | none => b

/-- UI state of the Dashboard component relevant to selection, time window and search. -/
structure UIState where
  selectedIds : List String
  timeMin : String
  timeMax : Option String
  searchQuery : String
deriving DecidableEq

/-- Dashboard.tsx `handleDateRangeChange`: sets the new time window.  The code
deliberately does not touch `selectedIds` (comment in the source: do not clear
selections when the date range changes). -/
def handleDateRangeChange (s : UIState) (newTimeMin : String) (newTimeMax : Option String) :
    UIState :=
  { s with timeMin := newTimeMin, timeMax := newTimeMax }

/-- Dashboard.tsx `handleSearchChange`: sets the query; the analytics call has no
effect on the state. -/
def handleSearchChange (s : UIState) (query : String) : UIState :=
  { s with searchQuery := query }

end Uneventful

namespace Uneventful

/-- C1 counterexample state: a selection of one event id is in force. -/
def c1State : UIState :=
  { selectedIds := ["evt-1"], timeMin := "2025-01-01", timeMax := some "2025-01-15",
    searchQuery := "" }

/-- C1: the claim says that after a time-window change the SelectionSet is empty,
regardless of prior selection.  The code keeps the selection: from the concrete
state with selection `["evt-1"]`, changing the window leaves the selection
non-empty. -/
theorem c1_counterexample :
    (handleDateRangeChange c1State "2025-02-01" none).selectedIds ≠ [] := by
  decide

/-- C1 (amended): changing the time window updates `timeMin`/`timeMax` and leaves
the SelectionSet exactly unchanged (it does not clear it). -/
theorem c1_dateRangeChange_preserves_selection (s : UIState) (newTimeMin : String)
    (newTimeMax : Option String) :
    (handleDateRangeChange s newTimeMin newTimeMax).selectedIds = s.selectedIds ∧
    (handleDateRangeChange s newTimeMin newTimeMax).timeMin = newTimeMin ∧
    (handleDateRangeChange s newTimeMin newTimeMax).timeMax = newTimeMax := by
  exact ⟨rfl, rfl, rfl⟩

/-- C8: changing only the search query leaves the contents of the SelectionSet
exactly unchanged, including marks on events the new query hides. -/
theorem c8_searchChange_preserves_selection (s : UIState) (query : String) :
    (handleSearchChange s query).selectedIds = s.selectedIds ∧
    ∀ eid, eid ∈ (handleSearchChange s query).selectedIds ↔ eid ∈ s.selectedIds := by
  exact ⟨rfl, fun _ => Iff.rfl⟩

/-! Search filtering (Dashboard.tsx `filteredEvents`).

The code normalizes both the query and each candidate field with
`str.normalize('NFD').replace(/[̀-ͯ]/g, '').toLowerCase()` and then uses
substring containment (`String.prototype.includes`).  Canonical decomposition is
modelled by a character table covering the precomposed Latin-1 letters (identity on
characters outside that range), and `toLowerCase` by the ASCII and Latin-1 lower-casing
map; both are faithful to the JavaScript builtins on those ranges. -/

/-- Canonical decomposition (NFD) of a single character, for the precomposed
Latin-1 Supplement letters; identity elsewhere. -/
def nfdChar (c : Char) : List Char :=
  match c with
  | 'À' => ['A', '\u0300'] | 'Á' => ['A', '\u0301'] | 'Â' => ['A', '\u0302']
  | 'Ã' => ['A', '\u0303'] | 'Ä' => ['A', '\u0308'] | 'Å' => ['A', '\u030A']
  | 'Ç' => ['C', '\u0327'] | 'È' => ['E', '\u0300'] | 'É' => ['E', '\u0301']
  | 'Ê' => ['E', '\u0302'] | 'Ë' => ['E', '\u0308'] | 'Ì' => ['I', '\u0300']
  | 'Í' => ['I', '\u0301'] | 'Î' => ['I', '\u0302'] | 'Ï' => ['I', '\u0308']
  | 'Ñ' => ['N', '\u0303'] | 'Ò' => ['O', '\u0300'] | 'Ó' => ['O', '\u0301']
  | 'Ô' => ['O', '\u0302'] | 'Õ' => ['O', '\u0303'] | 'Ö' => ['O', '\u0308']
  | 'Ù' => ['U', '\u0300'] | 'Ú' => ['U', '\u0301'] | 'Û' => ['U', '\u0302']
  | 'Ü' => ['U', '\u0308'] | 'Ý' => ['Y', '\u0301']
  | 'à' => ['a', '\u0300'] | 'á' => ['a', '\u0301'] | 'â' => ['a', '\u0302']
  | 'ã' => ['a', '\u0303'] | 'ä' => ['a', '\u0308'] | 'å' => ['a', '\u030A']
  | 'ç' => ['c', '\u0327'] | 'è' => ['e', '\u0300'] | 'é' => ['e', '\u0301']
  | 'ê' => ['e', '\u0302'] | 'ë' => ['e', '\u0308'] | 'ì' => ['i', '\u0300']
  | 'í' => ['i', '\u0301'] | 'î' => ['i', '\u0302'] | 'ï' => ['i', '\u0308']
  | 'ñ' => ['n', '\u0303'] | 'ò' => ['o', '\u0300'] | 'ó' => ['o', '\u0301']
  | 'ô' => ['o', '\u0302'] | 'õ' => ['o', '\u0303'] | 'ö' => ['o', '\u0308']
  | 'ù' => ['u', '\u0300'] | 'ú' => ['u', '\u0301'] | 'û' => ['u', '\u0302']
  | 'ü' => ['u', '\u0308'] | 'ý' => ['y', '\u0301'] | 'ÿ' => ['y', '\u0308']
  | _ => [c]

/-- NFD normalization of a string: `str.normalize('NFD')`. -/
def nfd (s : String) : String :=
  ⟨(s.data.map nfdChar).flatten⟩

/-- Combining diacritical marks, the range removed by the regex
replace of U+0300 through U+036F in the code. -/
def isCombiningMark (c : Char) : Bool :=
  0x300 ≤ c.toNat && c.toNat ≤ 0x36F

/-- Lower-casing of a single character as done by `toLowerCase`, covering the ASCII
and Latin-1 uppercase letters; identity elsewhere. -/
def jsLowerChar (c : Char) : Char :=
  if 0x41 ≤ c.toNat && c.toNat ≤ 0x5A then Char.ofNat (c.toNat + 0x20)
  else if (0xC0 ≤ c.toNat && c.toNat ≤ 0xDE) && !(c.toNat = 0xD7) then Char.ofNat (c.toNat + 0x20)
  else c

/-- Dashboard.tsx `normalizeString`: NFD decomposition, removal of combining marks
U+0300 through U+036F, then lower-casing. -/
def normalizeString (s : String) : String :=
  ⟨((nfd s).data.filter (fun c => !isCombiningMark c)).map jsLowerChar⟩

/-- Prefix test on character lists. -/
def beginsWith : List Char → List Char → Bool
  | [], _ => true
  | _ :: _, [] => false
  | a :: as, b :: bs => a == b && beginsWith as bs

/-- Substring containment on character lists: the needle occurs contiguously. -/
def hasSub (needle : List Char) : List Char → Bool
  | [] => needle.isEmpty
  | c :: t => beginsWith needle (c :: t) || hasSub needle t

/-- String containment, modelling `hay.includes(needle)`. -/
def strContains (hay needle : String) : Bool :=
  hasSub needle.data hay.data

/-- Modelled from the spec: `stripHtml` (src/frontend/src/utils/stripHtml.ts is not
among the sources) produces a plain-text rendering of the description, any markup
stripped before comparison; modelled as removing every tag between angle brackets. -/
def stripHtmlAux : Bool → List Char → List Char
  | _, [] => []
  | _, '<' :: t => stripHtmlAux true t
  | true, '>' :: t => stripHtmlAux false t
  | true, _ :: t => stripHtmlAux true t
  | false, c :: t => c :: stripHtmlAux false t

/-- Modelled from the spec: plain-text rendering of markup, see `stripHtmlAux`. -/
def stripHtml (s : String) : String :=
  ⟨stripHtmlAux false s.data⟩

/-- Match predicate of Dashboard.tsx `filteredEvents` for a single event, given the
already-normalized query `nq`.  Each branch mirrors the JavaScript guard
`field && normalizeString(...).includes(nq)`: an absent or empty field is falsy and
its branch yields false. -/
def eventMatches (nq : String) (e : CalendarEvent) : Bool :=
  (match e.summary with
   | some s => !(s = "") && strContains (normalizeString s) nq
   | none => false) ||
  (match e.description with
   | some s => !(s = "") && strContains (normalizeString (stripHtml s)) nq
   | none => false) ||
  (match e.location with
   | some s => !(s = "") && strContains (normalizeString s) nq
   | none => false)

/-- Dashboard.tsx `filteredEvents`: the empty query performs no filtering, otherwise
events are kept when any of title, markup-stripped description or location matches. -/
def filteredEvents (events : List CalendarEvent) (searchQuery : String) :
    List CalendarEvent :=
  if searchQuery = "" then events
  else events.filter (eventMatches (normalizeString searchQuery))

/-- C7: filtering with the empty query is the identity on the event list. -/
theorem c7_empty_query_identity (events : List CalendarEvent) :
    filteredEvents events "" = events := by
  simp [filteredEvents]

/-- Match predicate exactly as the claim words it: an event is kept when at least one
of title, markup-stripped description, or location contains the normalized query as a
substring, with normalization applied identically to query and field.  There is no
non-emptiness guard on the raw field here. -/
def specKeep (q : String) (e : CalendarEvent) : Bool :=
  (match e.summary with
   | some s => strContains (normalizeString s) (normalizeString q)
   | none => false) ||
  (match e.description with
   | some s => strContains (normalizeString (stripHtml s)) (normalizeString q)
   | none => false) ||
  (match e.location with
   | some s => strContains (normalizeString s) (normalizeString q)
   | none => false)

/-- Event with a present but empty title, used against C4 as stated. -/
def c4Event : CalendarEvent :=
  { id := "e0", summary := some "", description := none, location := none,
    start := { dateTime := none, date := none }, calendarId := "cal", calendarColor := none }

/-- C4: the claim as stated fails.  The query consisting of the single combining
acute accent U+0301 is non-empty, and it normalizes to the empty string; the event
whose title is the (present) empty string then satisfies the claim predicate, since
the empty string contains the empty string as a substring; but the code drops the
event, because the JavaScript guard `event.summary && ...` treats the empty title
as falsy. -/
theorem c4_counterexample :
    ("\u0301" : String) ≠ "" ∧ specKeep "\u0301" c4Event = true ∧
      filteredEvents [c4Event] "\u0301" = [] := by
  refine ⟨by decide, by decide, by decide⟩

/-- Per-field match with the JavaScript truthiness guard: the field must be present
and non-empty, and its normalized form must contain the normalized query. -/
def fieldHolds (nq : String) (f : Option String) : Bool :=
  match f with
  | some s => !(s = "") && strContains (normalizeString s) nq
  | none => false

/-- Match predicate as the amended claim words it: at least one of the three fields
is present and non-empty (raw field, JavaScript truthiness) and matches; for the
description the markup is stripped before normalization. -/
def amendedKeep (q : String) (e : CalendarEvent) : Bool :=
  fieldHolds (normalizeString q) e.summary ||
  (match e.description with
   | some s => !(s = "") && strContains (normalizeString (stripHtml s)) (normalizeString q)
   | none => false) ||
  fieldHolds (normalizeString q) e.location

/-- Event titled César, from the concrete instance in C4. -/
def c4Cesar : CalendarEvent :=
  { id := "e1", summary := some "César", description := none, location := none,
    start := { dateTime := none, date := none }, calendarId := "cal", calendarColor := none }

/-- C4 (amended): for every non-empty query, the filter keeps exactly the events for
which at least one of title, location, or markup-stripped description is present,
non-empty, and contains the normalized query as a substring, with normalization
applied identically to the query and to each field; in particular the event titled
César is kept for the query cesar. -/
theorem c4_filter_normalized_substring (events : List CalendarEvent) (q : String)
    (hq : q ≠ "") :
    filteredEvents events q = events.filter (amendedKeep q) ∧
    filteredEvents [c4Cesar] "cesar" = [c4Cesar] := by
  constructor
  · simp only [filteredEvents, if_neg hq]
    rfl
  · decide

/-- C4 witness: the amended theorem applied at the César event and the query cesar. -/
theorem c4_filter_normalized_substring_witness :
    filteredEvents [c4Cesar] "cesar" = [c4Cesar].filter (amendedKeep "cesar") ∧
    filteredEvents [c4Cesar] "cesar" = [c4Cesar] :=
  c4_filter_normalized_substring [c4Cesar] "cesar" (by decide)

/-! Select-all toggling (Dashboard.tsx `handleSelectAll`). -/

/-- JavaScript `new Set(xs)` as an insertion-ordered duplicate-free list: keeps the
first occurrence of each element. -/
def jsSetOf (xs : List String) : List String :=
  xs.foldl (fun acc x => if x ∈ acc then acc else acc ++ [x]) []

/-- Dashboard.tsx `handleSelectAll`: when the size of the current selection equals
the number of visible (filtered) events, clear the selection; otherwise set it to
the set of visible event ids. -/
def handleSelectAll (selectedIds : List String) (filtered : List CalendarEvent) :
    List String :=
  if selectedIds.length = filtered.length then []
  else jsSetOf (filtered.map CalendarEvent.id)

/-- Visible event of the C2 counterexample, with id b. -/
def c2Event : CalendarEvent :=
  { id := "b", summary := none, description := none, location := none,
    start := { dateTime := none, date := none }, calendarId := "cal",
    calendarColor := none }

/-- C2: the claim as stated fails.  With current selection consisting of the single
id a and a single visible event with id b, the selection does not equal the visible
set, so the claim requires select-all to yield exactly the visible set.  The code
compares only sizes, sees one equals one, and clears the selection instead. -/
theorem c2_counterexample :
    (¬ ∀ x, x ∈ ["a"] ↔ x ∈ [c2Event].map CalendarEvent.id) ∧
    handleSelectAll ["a"] [c2Event] = [] ∧
    handleSelectAll ["a"] [c2Event] ≠ jsSetOf ([c2Event].map CalendarEvent.id) := by
  refine ⟨fun h => ?_, by decide, by decide⟩
  have h1 := (h "a").mp (List.mem_singleton.mpr rfl)
  simp [c2Event] at h1

/-- C2 (amended): select-all clears the selection exactly when the size of the
current selection equals the number of visible events, and otherwise sets the
selection to exactly the visible set of ids; in particular a selection that equals
exactly the visible set (ids duplicate-free) is cleared. -/
theorem c2_selectAll_toggle (selectedIds : List String) (filtered : List CalendarEvent)
    (hndS : selectedIds.Nodup) (hndV : (filtered.map CalendarEvent.id).Nodup) :
    (selectedIds.length = filtered.length → handleSelectAll selectedIds filtered = []) ∧
    (selectedIds.length ≠ filtered.length →
      handleSelectAll selectedIds filtered = jsSetOf (filtered.map CalendarEvent.id)) ∧
    ((∀ x, x ∈ selectedIds ↔ x ∈ filtered.map CalendarEvent.id) →
      handleSelectAll selectedIds filtered = []) := by
  refine ⟨fun h => by simp [handleSelectAll, h], fun h => by simp [handleSelectAll, h],
    fun hiff => ?_⟩
  have h1 : selectedIds.toFinset = (filtered.map CalendarEvent.id).toFinset := by
    ext x
    simp only [List.mem_toFinset]
    exact hiff x
  have hlen : selectedIds.length = (filtered.map CalendarEvent.id).length := by
    calc selectedIds.length = selectedIds.toFinset.card :=
          (List.toFinset_card_of_nodup hndS).symm
      _ = (filtered.map CalendarEvent.id).toFinset.card := by rw [h1]
      _ = (filtered.map CalendarEvent.id).length := List.toFinset_card_of_nodup hndV
  have h2 : selectedIds.length = filtered.length := by simpa using hlen
  simp [handleSelectAll, h2]

/-- C2 witness: equal sizes clear the selection; different sizes select the visible
set. -/
theorem c2_selectAll_toggle_witness :
    handleSelectAll ["b"] [c2Event] = [] ∧
    handleSelectAll ["a", "c"] [c2Event] = jsSetOf ([c2Event].map CalendarEvent.id) :=
  ⟨(c2_selectAll_toggle ["b"] [c2Event] (by decide) (by decide)).1 (by decide),
   (c2_selectAll_toggle ["a", "c"] [c2Event] (by decide) (by decide)).2.1 (by decide)⟩

/-! Multi-calendar aggregation (Dashboard.tsx `loadEvents`).

The code tags the events of each fetched calendar with that calendar id and color,
concatenates the per-calendar results in iteration order, and sorts the merged array
with the comparator `(aTime).localeCompare(bTime)` on
`start.dateTime || start.date || two single quotes`.  That comparison is modelled by
code-point lexicographic order on the key strings, and the ECMAScript-mandated stable
sort by `List.insertionSort`. -/

/-- Lexicographic comparison of character lists by code point, the model of
`localeCompare(...) being at most zero` for the ISO key strings compared here. -/
def lexLe : List Char → List Char → Bool
  | [], _ => true
  | _ :: _, [] => false
  | a :: as, b :: bs =>
    if a.toNat < b.toNat then true
    else if b.toNat < a.toNat then false
    else lexLe as bs

/-- String comparison by code point. -/
def strLe (a b : String) : Bool :=
  lexLe a.data b.data

theorem lexLe_refl : ∀ l, lexLe l l = true
  | [] => rfl
  | a :: as => by
    simp only [lexLe, Nat.lt_irrefl, if_false]
    exact lexLe_refl as

theorem lexLe_total : ∀ as bs, lexLe as bs = true ∨ lexLe bs as = true
  | [], _ => Or.inl rfl
  | _ :: _, [] => Or.inr rfl
  | a :: as, b :: bs => by
    rcases Nat.lt_trichotomy a.toNat b.toNat with h | h | h
    · left; simp [lexLe, h]
    · simp only [lexLe, h, Nat.lt_irrefl, if_false]
      exact lexLe_total as bs
    · right; simp [lexLe, h]

theorem lexLe_trans : ∀ as bs cs, lexLe as bs = true → lexLe bs cs = true →
    lexLe as cs = true
  | [], _, _, _, _ => rfl
  | _ :: _, [], _, h, _ => by simp [lexLe] at h
  | _ :: _, _ :: _, [], _, h => by simp [lexLe] at h
  | a :: as, b :: bs, c :: cs, h₁, h₂ => by
    have ih := lexLe_trans as bs cs
    simp only [lexLe] at h₁ h₂ ⊢
    split_ifs at h₁ h₂ ⊢ <;>
      first
        | rfl
        | omega
        | (exact ih h₁ h₂)

/-- Start key of an event as the code computes it:
`start.dateTime || start.date || empty`, with JavaScript truthiness. -/
def startKey (e : CalendarEvent) : String :=
  orElseStr e.start.dateTime (orElseStr e.start.date "")

/-- Comparator relation of the merge sort in `loadEvents`: the raw start key of `a`
is at most that of `b` in code-point order. -/
def eventLe (a b : CalendarEvent) : Prop :=
  strLe (startKey a) (startKey b) = true

instance : DecidableRel eventLe :=
  fun _ _ => inferInstanceAs (Decidable (_ = true))

instance : IsTotal CalendarEvent eventLe :=
  ⟨fun _ _ => lexLe_total _ _⟩

instance : IsTrans CalendarEvent eventLe :=
  ⟨fun _ _ _ => lexLe_trans _ _ _⟩

/-- Result of one per-calendar `api.getEvents` call together with the calendar id it
was issued for and the background color of that calendar. -/
structure FetchResult where
  calendarId : String
  backgroundColor : Option String
  events : List CalendarEvent
deriving DecidableEq

/-- Tagging step of `loadEvents`: each fetched event receives the calendar id and
the display color of its source calendar. -/
def tagEvents (calendarId : String) (calendarColor : Option String)
    (evs : List CalendarEvent) : List CalendarEvent :=
  evs.map fun e => { e with calendarId := calendarId, calendarColor := calendarColor }

/-- Concatenation of the tagged per-calendar fetches in iteration order, the state of
`allEvents` before the sort. -/
def mergeFetched (rs : List FetchResult) : List CalendarEvent :=
  (rs.map fun r => tagEvents r.calendarId r.backgroundColor r.events).flatten

/-- Dashboard.tsx `loadEvents` merge result: the concatenated tagged events, stably
sorted by the raw start key. -/
def loadEventsList (rs : List FetchResult) : List CalendarEvent :=
  List.insertionSort eventLe (mergeFetched rs)

/-- Start key as the claim words it: the start timestamp, a date-only event compared
as midnight of that date. -/
def specStartKey (e : CalendarEvent) : String :=
  match e.start.dateTime with
  | some s => s
  | none =>
    match e.start.date with
    | some d => d ++ "T00:00:00"
    | none => ""

/-- Timed event starting at exactly midnight, first in input order. -/
def c5Midnight : CalendarEvent :=
  { id := "t1", summary := none, description := none, location := none,
    start := { dateTime := some "2025-06-01T00:00:00", date := none },
    calendarId := "gamma", calendarColor := none }

/-- All-day event on the same date, second in input order. -/
def c5AllDay : CalendarEvent :=
  { id := "t2", summary := none, description := none, location := none,
    start := { dateTime := none, date := some "2025-06-01" },
    calendarId := "gamma", calendarColor := none }

/-- Fetch result delivering the midnight pair. -/
def c5FetchC : FetchResult :=
  { calendarId := "gamma", backgroundColor := none, events := [c5Midnight, c5AllDay] }

/-- C5: the claim as stated fails.  A timed event starting 2025-06-01T00:00:00 and an
all-day event on 2025-06-01 have the same start key under the claim reading (date-only
compared as midnight), so the claimed stable ordering must keep their input order; the
code instead compares the raw strings, where the bare date sorts strictly before the
timed midnight string, and swaps them. -/
theorem c5_counterexample :
    (∀ x ∈ mergeFetched [c5FetchC], ∀ y ∈ mergeFetched [c5FetchC],
      specStartKey x = specStartKey y) ∧
    loadEventsList [c5FetchC] ≠ mergeFetched [c5FetchC] := by
  refine ⟨by decide, by decide⟩

/-- Calendar alpha fetch of the concrete interleaved instance in C5. -/
def c5FetchA : FetchResult :=
  { calendarId := "alpha", backgroundColor := some "#3174ad",
    events :=
      [{ id := "a1", summary := none, description := none, location := none,
         start := { dateTime := some "2025-06-01T09:00:00", date := none },
         calendarId := "", calendarColor := none },
       { id := "a2", summary := none, description := none, location := none,
         start := { dateTime := some "2025-06-03T10:00:00", date := none },
         calendarId := "", calendarColor := none }] }

/-- Calendar beta fetch of the concrete interleaved instance in C5. -/
def c5FetchB : FetchResult :=
  { calendarId := "beta", backgroundColor := none,
    events :=
      [{ id := "b1", summary := none, description := none, location := none,
         start := { dateTime := none, date := some "2025-06-01" },
         calendarId := "", calendarColor := none },
       { id := "b2", summary := none, description := none, location := none,
         start := { dateTime := some "2025-06-02T12:00:00", date := none },
         calendarId := "", calendarColor := none }] }

/-- Expected merged order of the interleaved instance: the all-day event on
2025-06-01 first, then 09:00 on 2025-06-01, then 2025-06-02, then 2025-06-03. -/
def c5Expected : List CalendarEvent :=
  [{ id := "b1", summary := none, description := none, location := none,
     start := { dateTime := none, date := some "2025-06-01" },
     calendarId := "beta", calendarColor := none },
   { id := "a1", summary := none, description := none, location := none,
     start := { dateTime := some "2025-06-01T09:00:00", date := none },
     calendarId := "alpha", calendarColor := some "#3174ad" },
   { id := "b2", summary := none, description := none, location := none,
     start := { dateTime := some "2025-06-02T12:00:00", date := none },
     calendarId := "beta", calendarColor := none },
   { id := "a2", summary := none, description := none, location := none,
     start := { dateTime := some "2025-06-03T10:00:00", date := none },
     calendarId := "alpha", calendarColor := some "#3174ad" }]

/-- C5 (amended): the merged aggregate is a permutation of the concatenated tagged
fetches, sorted ascending by the raw start-key string (dateTime, else date, else
empty) in code-point order — under which a date-only key sorts strictly before every
timed key of the same date, midnight included — and events with equal raw keys keep
their input order; in particular two interleaved calendars merge into one ascending
sequence in which the all-day event on 2025-06-01 precedes the timed event starting
2025-06-01T09:00. -/
theorem c5_merge_sorted_stable (rs : List FetchResult) :
    List.Perm (loadEventsList rs) (mergeFetched rs) ∧
    (loadEventsList rs).Pairwise eventLe ∧
    (∀ k : String, (loadEventsList rs).filter (fun e => startKey e == k) =
      (mergeFetched rs).filter (fun e => startKey e == k)) ∧
    loadEventsList [c5FetchA, c5FetchB] = c5Expected := by
  refine ⟨List.perm_insertionSort eventLe _, List.sorted_insertionSort eventLe _, ?_, by decide⟩
  intro k
  have hmem : ∀ x ∈ (mergeFetched rs).filter (fun e => startKey e == k),
      ∀ y ∈ (mergeFetched rs).filter (fun e => startKey e == k), eventLe x y := by
    intro x hx y hy
    have hxk : startKey x = k := by
      have := (List.mem_filter.mp hx).2
      exact eq_of_beq this
    have hyk : startKey y = k := by
      have := (List.mem_filter.mp hy).2
      exact eq_of_beq this
    unfold eventLe strLe
    rw [hxk, hyk]
    exact lexLe_refl _
  have hpw := List.pairwise_of_forall_mem_list hmem
  have hsub : List.Sublist ((mergeFetched rs).filter (fun e => startKey e == k))
      (List.insertionSort eventLe (mergeFetched rs)) :=
    List.sublist_insertionSort hpw (List.filter_sublist _)
  have hself : ((mergeFetched rs).filter (fun e => startKey e == k)).filter
      (fun e => startKey e == k) = (mergeFetched rs).filter (fun e => startKey e == k) :=
    List.filter_eq_self.mpr fun a ha => (List.mem_filter.mp ha).2
  have hsub2 : List.Sublist ((mergeFetched rs).filter (fun e => startKey e == k))
      ((List.insertionSort eventLe (mergeFetched rs)).filter (fun e => startKey e == k)) :=
    hself ▸ hsub.filter (fun e => startKey e == k)
  have hperm : (List.insertionSort eventLe (mergeFetched rs)).filter
      (fun e => startKey e == k) |>.Perm ((mergeFetched rs).filter (fun e => startKey e == k)) :=
    (List.perm_insertionSort eventLe (mergeFetched rs)).filter (fun e => startKey e == k)
  exact (hsub2.eq_of_length hperm.length_eq.symm).symm

/-! Bulk deletion orchestration (Dashboard.tsx `handleDelete`).

The selection is iterated in Set insertion order and grouped by the owning calendar
of the first aggregate event bearing each id (a JavaScript Map keyed by calendar id,
insertion-ordered); each group is then sent to `api.deleteEvents` in order, counts
are accumulated, and on success the selection is cleared and `loadEvents` re-runs.
A thrown error is caught: the loop stops, the selection is not touched and no
refresh happens.  The api call is modelled as an oracle returning either a typed
error or per-batch succeeded and failed counts. -/

/-- Typed failures of the api layer: an authentication failure (AuthError with code
TOKEN_EXPIRED in the source) or a transport failure. -/
inductive ApiError where
  | authFailure
  | networkFailure
deriving DecidableEq

/-- Result shape of `api.deleteEvents`: per-batch counts of per-id outcomes. -/
structure DelResult where
  succeeded : Nat
  failed : Nat
deriving DecidableEq

/-- Appends an event id to the group of its calendar, creating the group at the end
when absent: the JavaScript Map update in `handleDelete`, insertion-ordered. -/
def addToGroup : List (String × List String) → String → String →
    List (String × List String)
  | [], cal, eid => [(cal, [eid])]
  | g :: rest, cal, eid =>
    if g.1 = cal then (g.1, g.2 ++ [eid]) :: rest
    else g :: addToGroup rest cal eid

/-- One step of the grouping loop: look the id up in the aggregate and add it to the
group of the calendar of the first event bearing it; ids with no matching event are
skipped. -/
def partStep (events : List CalendarEvent) (m : List (String × List String))
    (eid : String) : List (String × List String) :=
  match events.find? (fun e => e.id == eid) with
  | some e => addToGroup m e.calendarId eid
  | none => m

/-- Grouping of the selected ids by owning calendar (`eventsByCalendar` in the
source), in selection iteration order. -/
def partitionByCalendar (sel : List String) (events : List CalendarEvent) :
    List (String × List String) :=
  sel.foldl (partStep events) []

/-- Sequential dispatch of the per-calendar batches: stops at the first error,
otherwise accumulates the succeeded and failed counts.  Returns the list of batches
actually dispatched together with the outcome. -/
def processBatches (api : String → List String → Except ApiError DelResult) :
    List (String × List String) →
      List (String × List String) × Except ApiError (Nat × Nat)
  | [] => ([], Except.ok (0, 0))
  | b :: rest =>
    match api b.1 b.2 with
    | Except.error e => ([b], Except.error e)
    | Except.ok r =>
      match processBatches api rest with
      | (d, Except.ok (s, f)) => (b :: d, Except.ok (r.succeeded + s, r.failed + f))
      | (d, Except.error e) => (b :: d, Except.error e)

/-- Observable outcome of `handleDelete`: the selection afterwards, the batches that
were dispatched, the report (counts on completion, the error when one was thrown),
and whether the aggregate refresh (`loadEvents`) was triggered. -/
structure DeleteOutcome where
  newSelection : List String
  dispatched : List (String × List String)
  report : Except ApiError (Nat × Nat)
  refreshed : Bool

/-- Dashboard.tsx `handleDelete` over the api oracle: on success the selection is
cleared and the refresh runs; on a thrown error the selection and the aggregate are
left alone. -/
def handleDelete (api : String → List String → Except ApiError DelResult)
    (sel : List String) (events : List CalendarEvent) : DeleteOutcome :=
  let pr := processBatches api (partitionByCalendar sel events)
  match pr.2 with
  | Except.ok sf =>
    { newSelection := [], dispatched := pr.1, report := Except.ok sf, refreshed := true }
  | Except.error e =>
    { newSelection := sel, dispatched := pr.1, report := Except.error e, refreshed := false }

theorem processBatches_error (api : String → List String → Except ApiError DelResult) :
    ∀ (batches : List (String × List String)) (e : ApiError),
      (processBatches api batches).2 = Except.error e →
      ∃ k b, batches[k]? = some b ∧ api b.1 b.2 = Except.error e ∧
        (processBatches api batches).1 = batches.take (k + 1)
  | [], e, h => by simp [processBatches] at h
  | b :: rest, e, h => by
    rcases hapi : api b.1 b.2 with e0 | r
    · have he : e0 = e := by
        simp only [processBatches, hapi, Except.error.injEq] at h
        exact h
      refine ⟨0, b, by simp, ?_, by simp [processBatches, hapi]⟩
      rw [hapi, he]
    · rcases hres : processBatches api rest with ⟨d, res⟩
      rcases res with e1 | sf
      · have h2 : (processBatches api rest).2 = Except.error e := by
          rw [hres]
          simp only [processBatches, hapi, hres] at h
          exact h
        obtain ⟨k, b1, hk, hb1, hd⟩ := processBatches_error api rest e h2
        refine ⟨k + 1, b1, by simpa using hk, hb1, ?_⟩
        rw [hres] at hd
        simp only [processBatches, hapi, hres, List.take_succ_cons]
        exact congrArg (b :: ·) hd
      · rcases sf with ⟨s, f⟩
        simp [processBatches, hapi, hres] at h

theorem processBatches_ok (api : String → List String → Except ApiError DelResult) :
    ∀ (batches : List (String × List String)) (s f : Nat),
      (processBatches api batches).2 = Except.ok (s, f) →
      ∃ rs : List DelResult,
        List.Forall₂ (fun b r => api b.1 b.2 = Except.ok r) batches rs ∧
        s = (rs.map DelResult.succeeded).sum ∧ f = (rs.map DelResult.failed).sum
  | [], s, f, h => by
    simp only [processBatches, Except.ok.injEq, Prod.mk.injEq] at h
    exact ⟨[], List.Forall₂.nil, by simp [← h.1], by simp [← h.2]⟩
  | b :: rest, s, f, h => by
    rcases hapi : api b.1 b.2 with e0 | r
    · simp [processBatches, hapi] at h
    · rcases hres : processBatches api rest with ⟨d, res⟩
      rcases res with e1 | ⟨s1, f1⟩
      · simp [processBatches, hapi, hres] at h
      · have h2 : (processBatches api rest).2 = Except.ok (s1, f1) := by rw [hres]
        obtain ⟨rs, hall, hs, hf⟩ := processBatches_ok api rest s1 f1 h2
        simp only [processBatches, hapi, hres, Except.ok.injEq, Prod.mk.injEq] at h
        refine ⟨r :: rs, List.Forall₂.cons hapi hall, ?_, ?_⟩
        · simp [← h.1, hs]
        · simp [← h.2, hf]

/-- C3: when some per-calendar call of a deletion raises AuthFailure, the
SelectionSet is left exactly as it was, and the dispatched batches form the prefix
of the partition ending at the failing batch — the remaining batches are not
dispatched. -/
theorem c3_authFailure_aborts (api : String → List String → Except ApiError DelResult)
    (sel : List String) (events : List CalendarEvent)
    (h : (handleDelete api sel events).report = Except.error ApiError.authFailure) :
    (handleDelete api sel events).newSelection = sel ∧
    ∃ k b, (partitionByCalendar sel events)[k]? = some b ∧
      api b.1 b.2 = Except.error ApiError.authFailure ∧
      (handleDelete api sel events).dispatched =
        (partitionByCalendar sel events).take (k + 1) := by
  rcases h2 : (processBatches api (partitionByCalendar sel events)).2 with e | sf
  · have he : e = ApiError.authFailure := by
      simp only [handleDelete, h2] at h
      exact (Except.error.injEq _ _).mp h
    subst he
    obtain ⟨k, b, hk, hb, hd⟩ :=
      processBatches_error api (partitionByCalendar sel events) ApiError.authFailure h2
    refine ⟨by simp [handleDelete, h2], k, b, hk, hb, ?_⟩
    simpa [handleDelete, h2] using hd
  · simp [handleDelete, h2] at h

/-- Event with id A in cal1, first event of the concrete deletion scenarios. -/
def delEv1 : CalendarEvent :=
  { id := "A", summary := none, description := none, location := none,
    start := { dateTime := none, date := none }, calendarId := "cal1",
    calendarColor := none }

/-- Event with id C in cal2, second event of the concrete deletion scenarios. -/
def delEv2 : CalendarEvent :=
  { id := "C", summary := none, description := none, location := none,
    start := { dateTime := none, date := none }, calendarId := "cal2",
    calendarColor := none }

/-- Aggregate of the concrete deletion scenarios. -/
def delEvents : List CalendarEvent :=
  [delEv1, delEv2]

/-- Api oracle for the C3 witness: cal1 rejects with AuthFailure. -/
def c3Api : String → List String → Except ApiError DelResult :=
  fun c _ => if c = "cal1" then Except.error ApiError.authFailure
             else Except.ok ⟨1, 0⟩

/-- C3 witness: the theorem applied to the concrete failing scenario. -/
theorem c3_authFailure_aborts_witness :
    (handleDelete c3Api ["A", "C"] delEvents).newSelection = ["A", "C"] ∧
    ∃ k b, (partitionByCalendar ["A", "C"] delEvents)[k]? = some b ∧
      c3Api b.1 b.2 = Except.error ApiError.authFailure ∧
      (handleDelete c3Api ["A", "C"] delEvents).dispatched =
        (partitionByCalendar ["A", "C"] delEvents).take (k + 1) :=
  c3_authFailure_aborts c3Api ["A", "C"] delEvents rfl

/-- C9: when a deletion completes (no per-calendar call throws), regardless of how
many per-id deletions failed, the SelectionSet is cleared, the aggregate refresh is
triggered, and the succeeded and failed counts of the report are the sums of the
per-calendar outcomes. -/
theorem c9_completion_clears_and_refreshes
    (api : String → List String → Except ApiError DelResult)
    (sel : List String) (events : List CalendarEvent) (s f : Nat)
    (h : (handleDelete api sel events).report = Except.ok (s, f)) :
    (handleDelete api sel events).newSelection = [] ∧
    (handleDelete api sel events).refreshed = true ∧
    ∃ rs : List DelResult,
      List.Forall₂ (fun b r => api b.1 b.2 = Except.ok r)
        (partitionByCalendar sel events) rs ∧
      s = (rs.map DelResult.succeeded).sum ∧ f = (rs.map DelResult.failed).sum := by
  rcases h2 : (processBatches api (partitionByCalendar sel events)).2 with e | sf0
  · simp [handleDelete, h2] at h
  · have hsf : sf0 = (s, f) := by
      simp only [handleDelete, h2] at h
      exact (Except.ok.injEq _ _).mp h
    subst hsf
    exact ⟨by simp [handleDelete, h2], by simp [handleDelete, h2],
      processBatches_ok api (partitionByCalendar sel events) s f h2⟩

/-- Api oracle for the C9 witness: every batch is accepted, cal2 reports one per-id
failure. -/
def c9Api : String → List String → Except ApiError DelResult :=
  fun c ids => Except.ok ⟨ids.length, if c = "cal2" then 1 else 0⟩

/-- C9 witness: the theorem applied to a concrete completed deletion with one failed
id. -/
theorem c9_completion_clears_and_refreshes_witness :
    (handleDelete c9Api ["A", "C"] delEvents).newSelection = [] ∧
    (handleDelete c9Api ["A", "C"] delEvents).refreshed = true ∧
    ∃ rs : List DelResult,
      List.Forall₂ (fun b r => c9Api b.1 b.2 = Except.ok r)
        (partitionByCalendar ["A", "C"] delEvents) rs ∧
      2 = (rs.map DelResult.succeeded).sum ∧ 1 = (rs.map DelResult.failed).sum :=
  c9_completion_clears_and_refreshes c9Api ["A", "C"] delEvents 2 1 rfl

theorem addToGroup_mem_ids : ∀ (m : List (String × List String)) (cal eid : String)
    (g : String × List String) (x : String),
    g ∈ addToGroup m cal eid → x ∈ g.2 → (∃ g2 ∈ m, x ∈ g2.2) ∨ x = eid
  | [], cal, eid, g, x, hg, hx => by
    simp only [addToGroup, List.mem_singleton] at hg
    subst hg
    simp only [List.mem_singleton] at hx
    exact Or.inr hx
  | g0 :: rest, cal, eid, g, x, hg, hx => by
    by_cases h0 : g0.1 = cal
    · simp only [addToGroup, if_pos h0, List.mem_cons] at hg
      rcases hg with hg | hg
      · subst hg
        simp only [List.mem_append, List.mem_singleton] at hx
        rcases hx with hx | hx
        · exact Or.inl ⟨g0, List.mem_cons_self g0 rest, hx⟩
        · exact Or.inr hx
      · exact Or.inl ⟨g, List.mem_cons_of_mem g0 hg, hx⟩
    · simp only [addToGroup, if_neg h0, List.mem_cons] at hg
      rcases hg with hg | hg
      · subst hg
        exact Or.inl ⟨g, List.mem_cons_self g rest, hx⟩
      · rcases addToGroup_mem_ids rest cal eid g x hg hx with ⟨g2, hg2, hx2⟩ | h
        · exact Or.inl ⟨g2, List.mem_cons_of_mem g0 hg2, hx2⟩
        · exact Or.inr h

theorem addToGroup_assign : ∀ (m : List (String × List String)) (cal eid : String),
    ∃ g ∈ addToGroup m cal eid, g.1 = cal ∧ eid ∈ g.2
  | [], cal, eid => ⟨(cal, [eid]), by simp [addToGroup]⟩
  | g0 :: rest, cal, eid => by
    by_cases h0 : g0.1 = cal
    · exact ⟨(g0.1, g0.2 ++ [eid]), by simp [addToGroup, h0], h0, by simp⟩
    · obtain ⟨g, hg, h1, h2⟩ := addToGroup_assign rest cal eid
      exact ⟨g, by simp only [addToGroup, if_neg h0, List.mem_cons]; exact Or.inr hg,
        h1, h2⟩

theorem addToGroup_mono : ∀ (m : List (String × List String)) (cal eid c x : String),
    (∃ g ∈ m, g.1 = c ∧ x ∈ g.2) → ∃ g ∈ addToGroup m cal eid, g.1 = c ∧ x ∈ g.2
  | [], _, _, _, _, h => by simp at h
  | g0 :: rest, cal, eid, c, x, h => by
    obtain ⟨g, hg, h1, h2⟩ := h
    rcases List.mem_cons.mp hg with hg0 | hgr
    · subst hg0
      by_cases h0 : g.1 = cal
      · exact ⟨(g.1, g.2 ++ [eid]), by simp [addToGroup, h0], h1, by simp [h2]⟩
      · exact ⟨g, by simp [addToGroup, h0], h1, h2⟩
    · by_cases h0 : g0.1 = cal
      · exact ⟨g, by simp only [addToGroup, if_pos h0, List.mem_cons]; exact Or.inr hgr,
          h1, h2⟩
      · obtain ⟨g2, hg2, h12, h22⟩ := addToGroup_mono rest cal eid c x ⟨g, hgr, h1, h2⟩
        exact ⟨g2, by simp only [addToGroup, if_neg h0, List.mem_cons]; exact Or.inr hg2,
          h12, h22⟩

theorem partStep_mono (events : List CalendarEvent) (m : List (String × List String))
    (eid0 c x : String) (h : ∃ g ∈ m, g.1 = c ∧ x ∈ g.2) :
    ∃ g ∈ partStep events m eid0, g.1 = c ∧ x ∈ g.2 := by
  unfold partStep
  rcases hf : events.find? (fun e => e.id == eid0) with _ | e <;> rw [hf]
  · exact h
  · exact addToGroup_mono m e.calendarId eid0 c x h

theorem foldl_partStep_mono (events : List CalendarEvent) :
    ∀ (sel : List String) (m : List (String × List String)) (c x : String),
    (∃ g ∈ m, g.1 = c ∧ x ∈ g.2) →
    ∃ g ∈ sel.foldl (partStep events) m, g.1 = c ∧ x ∈ g.2
  | [], _, _, _, h => h
  | eid :: sel, m, c, x, h =>
    foldl_partStep_mono events sel (partStep events m eid) c x
      (partStep_mono events m eid c x h)

theorem foldl_partStep_assign (events : List CalendarEvent) :
    ∀ (sel : List String) (m : List (String × List String)) (eid : String)
      (e : CalendarEvent), eid ∈ sel → events.find? (fun x => x.id == eid) = some e →
    ∃ g ∈ sel.foldl (partStep events) m, g.1 = e.calendarId ∧ eid ∈ g.2
  | [], _, eid, _, hsel, _ => absurd hsel (List.not_mem_nil eid)
  | x :: sel, m, eid, e, hsel, hfind => by
    rcases List.mem_cons.mp hsel with hx | hx
    · subst hx
      have h1 : partStep events m eid = addToGroup m e.calendarId eid := by
        unfold partStep
        rw [hfind]
      rw [List.foldl_cons, h1]
      exact foldl_partStep_mono events sel _ e.calendarId eid
        (addToGroup_assign m e.calendarId eid)
    · rw [List.foldl_cons]
      exact foldl_partStep_assign events sel (partStep events m x) eid e hx hfind

theorem foldl_partStep_not_mem (events : List CalendarEvent) (eid : String)
    (hev : ∀ e ∈ events, e.id ≠ eid) :
    ∀ (sel : List String) (m : List (String × List String)),
      (∀ g ∈ m, eid ∉ g.2) → ∀ g ∈ sel.foldl (partStep events) m, eid ∉ g.2
  | [], _, hm => hm
  | x :: sel, m, hm => by
    apply foldl_partStep_not_mem events eid hev sel (partStep events m x)
    intro g hg hx
    unfold partStep at hg
    rcases hf : events.find? (fun e => e.id == x) with _ | e
    · rw [hf] at hg
      exact hm g hg hx
    · rw [hf] at hg
      rcases addToGroup_mem_ids m e.calendarId x g eid hg hx with ⟨g2, hg2, hx2⟩ | hx2
      · exact hm g2 hg2 hx2
      · have hmem := List.mem_of_find?_eq_some hf
        have hid : e.id = x := by simpa using List.find?_some hf
        exact hev e hmem (hid.trans hx2.symm)

theorem foldl_partStep_filter (events : List CalendarEvent) (eid : String)
    (hev : ∀ e ∈ events, e.id ≠ eid) :
    ∀ (sel : List String) (m : List (String × List String)),
      (sel.filter (fun x => !(x == eid))).foldl (partStep events) m =
        sel.foldl (partStep events) m
  | [], _ => rfl
  | x :: sel, m => by
    by_cases hx : x = eid
    · subst hx
      have hf : events.find? (fun e => e.id == x) = none := by
        apply List.find?_eq_none.mpr
        intro e he
        simpa using hev e he
      have h1 : partStep events m x = m := by
        unfold partStep
        rw [hf]
      have h2 : (x :: sel).filter (fun y => !(y == x)) = sel.filter (fun y => !(y == x)) :=
        List.filter_cons_of_neg (by simp)
      rw [h2, foldl_partStep_filter events x hev sel m, List.foldl_cons, h1]
    · have h2 : (x :: sel).filter (fun y => !(y == eid)) =
          x :: sel.filter (fun y => !(y == eid)) :=
        List.filter_cons_of_pos (by simp [hx])
      rw [h2, List.foldl_cons, List.foldl_cons,
        foldl_partStep_filter events eid hev sel (partStep events m x)]

/-- C6: the deletion partition assigns each selected id that resolves in the
aggregate to the calendar of the (first) event bearing it, and a selected id with no
matching event is excluded from every batch and leaves the whole deletion report —
both counts included — exactly as if it had not been selected. -/
theorem c6_partition_drops_unresolvable (sel : List String)
    (events : List CalendarEvent) :
    (∀ eid e, eid ∈ sel → events.find? (fun x => x.id == eid) = some e →
      ∃ g ∈ partitionByCalendar sel events, g.1 = e.calendarId ∧ eid ∈ g.2) ∧
    (∀ eid, (∀ e ∈ events, e.id ≠ eid) →
      (∀ g ∈ partitionByCalendar sel events, eid ∉ g.2) ∧
      ∀ api, (handleDelete api sel events).report =
        (handleDelete api (sel.filter (fun x => !(x == eid))) events).report) := by
  refine ⟨?_, ?_⟩
  · intro eid e hsel hfind
    exact foldl_partStep_assign events sel [] eid e hsel hfind
  · intro eid hev
    refine ⟨foldl_partStep_not_mem events eid hev sel [] (by simp), ?_⟩
    intro api
    have hpart : partitionByCalendar (sel.filter (fun x => !(x == eid))) events =
        partitionByCalendar sel events :=
      foldl_partStep_filter events eid hev sel []
    simp only [handleDelete, hpart]
    rcases h2 : (processBatches api (partitionByCalendar sel events)).2 with e | sf <;>
      simp [h2]

/-- Api oracle of the C6 witness: every batch is accepted with all ids succeeding. -/
def c6Api : String → List String → Except ApiError DelResult :=
  fun _ ids => Except.ok ⟨ids.length, 0⟩

/-- C6 witness: the theorem applied to a selection holding the resolvable id A and
the unresolvable id zzz. -/
theorem c6_partition_drops_unresolvable_witness :
    (∃ g ∈ partitionByCalendar ["A", "zzz"] delEvents, g.1 = "cal1" ∧ "A" ∈ g.2) ∧
    (∀ g ∈ partitionByCalendar ["A", "zzz"] delEvents, "zzz" ∉ g.2) ∧
    (handleDelete c6Api ["A", "zzz"] delEvents).report =
      (handleDelete c6Api ((["A", "zzz"]).filter (fun x => !(x == "zzz")))
        delEvents).report := by
  have h := c6_partition_drops_unresolvable ["A", "zzz"] delEvents
  exact ⟨h.1 "A" delEv1 (by simp) rfl, (h.2 "zzz" (by decide)).1,
    (h.2 "zzz" (by decide)).2 c6Api⟩

/-! Calendar list sorting (Dashboard.tsx `loadCalendars`). -/

/-- Display name of a calendar as the comparator in `loadCalendars` computes it:
`summaryOverride || summary || empty`, with JavaScript truthiness. -/
def displayName (c : Calendar) : String :=
  orElseStr c.summaryOverride (orElseStr c.summary "")

/-- Comparator of `loadCalendars` as a non-strict order: the comparator returns
a negative value when only `a` is primary, a positive value when only `b` is, and
otherwise compares display names with `localeCompare` (modelled as code-point
order); `calCompLe a b` states that the comparator does not place `a` after `b`. -/
def calCompLe (a b : Calendar) : Bool :=
  if a.primary && !b.primary then true
  else if !a.primary && b.primary then false
  else strLe (displayName a) (displayName b)

/-- Propositional form of `calCompLe`. -/
def calendarLe (a b : Calendar) : Prop :=
  calCompLe a b = true

instance : DecidableRel calendarLe :=
  fun _ _ => inferInstanceAs (Decidable (_ = true))

instance : IsTotal Calendar calendarLe := by
  constructor
  intro a b
  unfold calendarLe calCompLe
  cases ha : a.primary <;> cases hb : b.primary <;> simp
  · exact lexLe_total _ _
  · exact lexLe_total _ _

instance : IsTrans Calendar calendarLe := by
  constructor
  intro a b c hab hbc
  unfold calendarLe calCompLe at hab hbc ⊢
  cases ha : a.primary <;> cases hb : b.primary <;> cases hc : c.primary <;>
    simp_all <;> exact lexLe_trans _ _ _ hab hbc

/-- Dashboard.tsx `loadCalendars` sorting step: the fetched calendar list sorted by
the comparator, primary first, then by display name. -/
def sortCalendars (cals : List Calendar) : List Calendar :=
  List.insertionSort calendarLe cals

/-- C10: the sorted calendar list is a permutation of the loaded list in which every
calendar with the primary flag precedes every calendar without it, and calendars of
equal primary status appear in alphabetical order (code-point order) of their display
name, where the display name prefers the user override `summaryOverride` over the
provider name `summary` and a missing name counts as the empty string. -/
theorem c10_calendars_sorted (cals : List Calendar) :
    List.Perm (sortCalendars cals) cals ∧
    (sortCalendars cals).Pairwise (fun a b =>
      (b.primary = true → a.primary = true) ∧
      (a.primary = b.primary → strLe (displayName a) (displayName b) = true)) := by
  refine ⟨List.perm_insertionSort calendarLe cals, ?_⟩
  have h : (sortCalendars cals).Pairwise calendarLe :=
    List.sorted_insertionSort calendarLe cals
  refine h.imp ?_
  intro a b hab
  unfold calendarLe calCompLe at hab
  constructor
  · intro hbp
    cases ha : a.primary <;> cases hb : b.primary <;> simp_all
  · intro hpe
    cases ha : a.primary <;> cases hb : b.primary <;> simp_all

end Uneventful
